import Mathlib

/-!
Verification of the `RangeSet` interval-coverage data structure from
`src/day15/main.py` of the aoc-2022 repository.

A `Range` is a closed integer interval given by its first and last element,
exactly as in the Python source (`Range = tuple[int, int]`).  Python integers
are unbounded, so they are embedded as `Int`.  A `RangeSet`'s state is its
`ranges` list.  The `assert` in `RangeSet.add` is modelled by returning
`Option`: `none` is an `AssertionError` escaping to the caller.
-/

/-- A closed integer interval `(lo, hi)`, as in `Range = tuple[int, int]`. -/
abbrev Range : Type := Int × Int

/-- Python tuple comparison `<=` on pairs of ints (lexicographic), the order
used by `self.ranges.sort()`. -/
def lexLe (a b : Range) : Prop := a.1 < b.1 ∨ (a.1 = b.1 ∧ a.2 ≤ b.2)

instance : DecidableRel lexLe := fun a b =>
  inferInstanceAs (Decidable (a.1 < b.1 ∨ (a.1 = b.1 ∧ a.2 ≤ b.2)))

instance : IsTotal Range lexLe :=
  ⟨by intro a b; unfold lexLe; omega⟩

instance : IsTrans Range lexLe :=
  ⟨by intro a b c; unfold lexLe; omega⟩

instance : IsAntisymm Range lexLe :=
  ⟨by
    intro a b h h'
    have : a.1 = b.1 ∧ a.2 = b.2 := by unfold lexLe at h h'; omega
    exact Prod.ext this.1 this.2⟩

/-- `self.ranges.sort()`: Python's sort is a stable sort by `lexLe`; since
`lexLe` is a total antisymmetric order on `Int × Int`, any sorting algorithm
produces the same list, here insertion sort. -/
def sortRanges (l : List Range) : List Range := List.insertionSort lexLe l

/-- The merging loop of `RangeSet._simplify` after the sort: `prev` is
`prev_range`, and the branch condition is `prev_range[1] >= next_range[0] - 1`. -/
def mergePass (prev : Range) : List Range → List Range
  | [] => [prev]
  | next :: rest =>
    if next.1 - 1 ≤ prev.2 then mergePass (prev.1, max prev.2 next.2) rest
    else prev :: mergePass next rest

/-- The body of `RangeSet._simplify` after the sort: take `ranges[0]` as the
initial `prev_range` and merge through `ranges[1:]`.  (The Python code would
raise `IndexError` on an empty list, but `_simplify` is only ever invoked
right after an append, so the list is nonempty at every call site; the `[]`
branch is dead code.) -/
def mergeAll : List Range → List Range
  | [] => []
  | h :: t => mergePass h t

/-- `RangeSet._simplify`: sort `self.ranges`, then run the merging loop. -/
def simplify (l : List Range) : List Range := mergeAll (sortRanges l)

/-- `RangeSet.add`: `assert range[0] <= range[1]`, append, re-simplify.
`none` models the `AssertionError`. -/
def addR (s : List Range) (r : Range) : Option (List Range) :=
  if r.1 ≤ r.2 then some (simplify (s ++ [r])) else none

/-- The loop of `RangeSet.__init__` starting from intermediate state `s`:
`for r in ranges: self.add(r)`. -/
def mkFrom (s : List Range) : List Range → Option (List Range)
  | [] => some s
  | r :: rest =>
    match addR s r with
    | none => none
    | some s' => mkFrom s' rest

/-- `RangeSet(ranges)`: start from the empty list and add each range. -/
def mkRS (rs : List Range) : Option (List Range) := mkFrom [] rs

/-- `RangeSet.__len__`: `sum(b - a + 1 for a, b in self.ranges)`. -/
def sizeR (l : List Range) : Int := (l.map (fun r => r.2 - r.1 + 1)).sum

/-- `RangeSet.__bool__`: `len(self) != 0`. -/
def boolR (l : List Range) : Bool := decide (sizeR l ≠ 0)

/-- `range(first, last + 1)` materialised: the `n` consecutive integers
starting at `s`. -/
def expandN (s : Int) : Nat → List Int
  | 0 => []
  | n + 1 => s :: expandN (s + 1) n

/-- One interval of the iteration of `RangeSet.__iter__`:
`yield from range(first, last + 1)`. -/
def expand (r : Range) : List Int := expandN r.1 (r.2 - r.1 + 1).toNat

/-- `RangeSet.__iter__` fully materialised: each interval expanded, in list
order. -/
def toListR : List Range → List Int
  | [] => []
  | r :: rest => expand r ++ toListR rest

/-- The `pairwise(self.ranges)` loop of `inverse_ranges`:
`yield range[1] + 1, next_range[0] - 1` for each consecutive pair. -/
def middleGaps : List Range → List Range
  | a :: b :: rest => (a.2 + 1, b.1 - 1) :: middleGaps (b :: rest)
  | _ => []

/-- `inverse_of.inverse_ranges`.  Note that in the Python source this is a
generator function (it contains `yield`), so the `return min_max_range`
taken when `self.ranges` is empty terminates the generator *without
yielding anything*: the empty case produces the empty sequence. -/
def inverse_ranges (s : List Range) (mm : Range) : List Range :=
  match s with
  | [] => []
  | f :: rest =>
    let l := List.getLast (f :: rest) (List.cons_ne_nil f rest)
    (if mm.1 < f.1 then [(mm.1, min mm.2 f.1)] else [])
      ++ middleGaps (f :: rest)
      ++ (if l.2 < mm.2 then [(max l.2 mm.1, mm.2)] else [])

/-- `too_far_left`: `r[1] < min_max_range[0]`. -/
def tooFarLeft (mm r : Range) : Bool := decide (r.2 < mm.1)

/-- `not_too_far_right`: `r[0] <= min_max_range[1]`. -/
def notTooFarRight (mm r : Range) : Bool := decide (r.1 ≤ mm.2)

/-- `unclipped_ranges[0] = max(unclipped_ranges[0][0], min_max_range[0]), unclipped_ranges[0][1]`. -/
def clipFirst (mm : Range) : List Range → List Range
  | [] => []
  | r :: rest => (max r.1 mm.1, r.2) :: rest

/-- `unclipped_ranges[-1] = unclipped_ranges[-1][0], min(unclipped_ranges[-1][1], min_max_range[1])`. -/
def clipLast (mm : Range) : List Range → List Range
  | [] => []
  | [r] => [(r.1, min r.2 mm.2)]
  | r :: s :: rest => r :: clipLast mm (s :: rest)

/-- `inverse_of.restrict_ranges`: dropwhile/takewhile filtering, then clip
the first and the last surviving range.  (On an empty survivor list the
Python code returns it unclipped, which coincides with clipping nothing.) -/
def restrict_ranges (mm : Range) (l : List Range) : List Range :=
  clipLast mm (clipFirst mm ((l.dropWhile (tooFarLeft mm)).takeWhile (notTooFarRight mm)))

/-- `RangeSet.inverse_of`: build a new `RangeSet` from the restricted gap
ranges.  `none` models the `AssertionError` raised by `add` when a clipped
gap is invalid. -/
def inverse_of (s : List Range) (mm : Range) : Option (List Range) :=
  mkRS (restrict_ranges mm (inverse_ranges s mm))

/-- The full method-call semantics of `inverse_of` with the receiver's state
passed explicitly: the method body only *reads* `self.ranges` (the generator
closures read it; `sort`/`append` mutation happens only on the freshly
constructed result object inside `RangeSet.__init__`), so the receiver's
state after the call is the state before it. -/
def inverse_of_method (s : List Range) (mm : Range) :
    List Range × Option (List Range) :=
  (s, mkRS (restrict_ranges mm (inverse_ranges s mm)))

/-- `all(r[0] <= r[1] for r in l)`: every supplied range is well-formed. -/
def allValid (l : List Range) : Bool := l.all fun r => decide (r.1 ≤ r.2)

/-- The normalization invariant of the stored list: every stored range is
well-formed and any two ranges (in list order) are separated by a genuine
gap, `a.hi + 1 < b.lo`. -/
def Normalized (l : List Range) : Prop :=
  l.Pairwise (fun a b => a.2 + 1 < b.1) ∧ allValid l = true

instance (l : List Range) : Decidable (Normalized l) :=
  inferInstanceAs (Decidable (_ ∧ _))

/-- C1. The claim that `inverse_of` returns exactly the integers of the bound
not covered by any stored interval fails on the code: for the coverage set
built from the single interval `(5, 5)` and the bound `(0, 20)`, the code
returns the single interval `(0, 20)`, which contains the covered integer
`5` (the leading gap is emitted up to `first.lo` and the trailing gap from
`last.hi`, both covered endpoints, and the two then merge across `5`). -/
theorem inverse_of_includes_covered_point :
    mkRS [((5 : Int), (5 : Int))] = some [(5, 5)] ∧
      inverse_of [((5 : Int), (5 : Int))] ((0 : Int), (20 : Int)) = some [(0, 20)] ∧
      (5 : Int) ∈ toListR [((0 : Int), (20 : Int))] ∧
      (5 : Int) ∈ toListR [((5 : Int), (5 : Int))] := by
  refine ⟨by decide, by decide, ?_, by decide⟩
  show (5 : Int) ∈ expandN 0 21 ++ []
  decide

/-- C2. The claim that the complement of an empty coverage set within
`(blo, bhi)` is the bound itself fails on the code: `inverse_ranges` is a
generator, so its `return min_max_range` statement ends the iteration
without yielding anything, and the call returns an *empty* coverage set.
At the spec's own example bound `(0, 20)` the result is `[]`, not
`[(0, 20)]`. -/
theorem inverse_of_empty_set_eval :
    inverse_of ([] : List Range) ((0 : Int), (20 : Int)) = some [] ∧
      some ([] : List Range) ≠ some [((0 : Int), (20 : Int))] := by
  exact ⟨by decide, by decide⟩

/-- C4. The round-trip law `Size(S) + Size(S.ComplementWithin(B)) =
B.hi - B.lo + 1` fails on the code: for `S = RangeSet([(5, 5)])` and bound
`B = (0, 20)` (which contains `S`'s one interval), the sizes sum to
`1 + 21 = 22`, not `21`, because the computed complement also contains the
covered integer `5`. -/
theorem size_roundtrip_fails :
    mkRS [((5 : Int), 5)] = some [(5, 5)] ∧
      inverse_of [((5 : Int), 5)] ((0 : Int), (20 : Int)) = some [(0, 20)] ∧
      sizeR [((5 : Int), 5)] + sizeR [((0 : Int), 20)] = 22 ∧
      (20 : Int) - 0 + 1 ≠ 22 := by
  exact ⟨by decide, by decide, by decide, by decide⟩

/-- C9. Concrete merge behaviour of construction: `[(3,5),(7,8)]` is kept as
two intervals, `[(3,7),(5,8)]` collapses to `[(3,8)]`, and `[(1,5),(1,3)]`
collapses to `[(1,5)]`, exactly as the claim states. -/
theorem mkRS_merge_examples :
    mkRS [((3 : Int), 5), (7, 8)] = some [(3, 5), (7, 8)] ∧
      mkRS [((3 : Int), 7), (5, 8)] = some [(3, 8)] ∧
      mkRS [((1 : Int), 5), (1, 3)] = some [(1, 5)] := by
  exact ⟨by decide, by decide, by decide⟩

/-- C10. Calling `inverse_of` leaves the receiver's stored interval list
unchanged: the method body only reads `self.ranges` and returns a freshly
constructed set, so in the explicit state-passing embedding the receiver
state component of the call is the input state, and the returned set is
exactly `inverse_of` of the unchanged state. -/
theorem inverse_of_frame (s : List Range) (mm : Range) :
    (inverse_of_method s mm).1 = s ∧
      (inverse_of_method s mm).2 = inverse_of s mm :=
  ⟨rfl, rfl⟩

theorem allValid_iff {l : List Range} :
    allValid l = true ↔ ∀ r ∈ l, r.1 ≤ r.2 := by
  simp [allValid, List.all_eq_true]

theorem sortRanges_sorted (l : List Range) :
    List.Pairwise lexLe (sortRanges l) :=
  List.sorted_insertionSort lexLe l

theorem mem_sortRanges {l : List Range} {x : Range} :
    x ∈ sortRanges l ↔ x ∈ l :=
  (List.perm_insertionSort lexLe l).mem_iff

theorem mergePass_spec :
    ∀ (t : List Range) (h : Range),
      List.Pairwise lexLe (h :: t) → (∀ r ∈ h :: t, r.1 ≤ r.2) →
      (mergePass h t).Pairwise (fun a b => a.2 + 1 < b.1) ∧
        (∀ r ∈ mergePass h t, r.1 ≤ r.2) ∧
        (∀ r ∈ mergePass h t, h.1 ≤ r.1) := by
  intro t
  induction t with
  | nil =>
    intro h _ hv
    rw [show mergePass h [] = [h] from rfl]
    refine ⟨List.pairwise_singleton _ _, ?_, ?_⟩
    · intro r hr
      rw [List.mem_singleton] at hr
      subst hr
      exact hv r (List.mem_singleton_self r)
    · intro r hr
      rw [List.mem_singleton] at hr
      subst hr
      exact le_refl _
  | cons n rest ih =>
    intro h hp hv
    rw [List.pairwise_cons] at hp
    obtain ⟨hhall, hp'⟩ := hp
    have hhn : lexLe h n := hhall n (List.mem_cons_self n rest)
    have hv' : ∀ r ∈ n :: rest, r.1 ≤ r.2 := fun r hr =>
      hv r (List.mem_cons_of_mem h hr)
    have hvh : h.1 ≤ h.2 := hv h (List.mem_cons_self h _)
    have hvn : n.1 ≤ n.2 := hv' n (List.mem_cons_self n _)
    by_cases hc : n.1 - 1 ≤ h.2
    · rw [show mergePass h (n :: rest)
            = mergePass (h.1, max h.2 n.2) rest from if_pos hc]
      have hp2 : List.Pairwise lexLe (n :: rest) := hp'
      rw [List.pairwise_cons] at hp2
      obtain ⟨hnall, hprest⟩ := hp2
      have hpm : List.Pairwise lexLe ((h.1, max h.2 n.2) :: rest) := by
        rw [List.pairwise_cons]
        refine ⟨?_, hprest⟩
        intro x hx
        have h1 := hhall x (List.mem_cons_of_mem n hx)
        have h2 := hnall x hx
        unfold lexLe at h1 h2 hhn ⊢
        simp only
        omega
      have hvm : ∀ r ∈ (h.1, max h.2 n.2) :: rest, r.1 ≤ r.2 := by
        intro r hr
        rcases List.mem_cons.mp hr with hr | hr
        · subst hr
          simp only
          omega
        · exact hv' r (List.mem_cons_of_mem n hr)
      obtain ⟨ihp, ihv, ihl⟩ := ih (h.1, max h.2 n.2) hpm hvm
      exact ⟨ihp, ihv, ihl⟩
    · rw [show mergePass h (n :: rest)
            = h :: mergePass n rest from if_neg hc]
      obtain ⟨ihp, ihv, ihl⟩ := ih n hp' hv'
      refine ⟨?_, ?_, ?_⟩
      · rw [List.pairwise_cons]
        refine ⟨?_, ihp⟩
        intro y hy
        have := ihl y hy
        omega
      · intro r hr
        rcases List.mem_cons.mp hr with hr | hr
        · subst hr; exact hvh
        · exact ihv r hr
      · intro r hr
        rcases List.mem_cons.mp hr with hr | hr
        · subst hr; exact le_refl _
        · have hn1 : h.1 ≤ n.1 := by unfold lexLe at hhn; omega
          exact le_trans hn1 (ihl r hr)

theorem simplify_normalized {l : List Range} (hv : allValid l = true) :
    Normalized (simplify l) := by
  unfold simplify
  rcases hs : sortRanges l with _ | ⟨h, t⟩
  · exact ⟨List.Pairwise.nil, rfl⟩
  · have hsort : List.Pairwise lexLe (h :: t) := by
      rw [← hs]; exact sortRanges_sorted l
    have hval : ∀ r ∈ h :: t, r.1 ≤ r.2 := by
      intro r hr
      apply allValid_iff.mp hv
      rw [← mem_sortRanges (l := l), hs]
      exact hr
    obtain ⟨hp, hv', _⟩ := mergePass_spec t h hsort hval
    exact ⟨hp, allValid_iff.mpr hv'⟩

theorem addR_normalized {s : List Range} {r : Range} {t : List Range}
    (hv : allValid s = true) (h : addR s r = some t) : Normalized t := by
  unfold addR at h
  by_cases hr : r.1 ≤ r.2
  · rw [if_pos hr] at h
    obtain rfl : simplify (s ++ [r]) = t := Option.some.inj h
    apply simplify_normalized
    rw [allValid_iff] at hv ⊢
    intro x hx
    rcases List.mem_append.mp hx with hx | hx
    · exact hv x hx
    · rw [List.mem_singleton] at hx; subst hx; exact hr
  · rw [if_neg hr] at h
    exact absurd h (by simp)

theorem mkFrom_normalized :
    ∀ (rs s t : List Range), allValid s = true → mkFrom s rs = some t →
      t = s ∨ Normalized t := by
  intro rs
  induction rs with
  | nil =>
    intro s t _ h
    exact Or.inl (Option.some.inj h).symm
  | cons r rest ih =>
    intro s t hv h
    unfold mkFrom at h
    rcases ha : addR s r with _ | s'
    · rw [ha] at h; exact absurd h (by simp)
    · rw [ha] at h
      have hn : Normalized s' := addR_normalized hv ha
      rcases ih s' t hn.2 h with h' | h'
      · exact Or.inr (h' ▸ hn)
      · exact Or.inr h'

theorem normalized_strict {t : List Range} (h : Normalized t) :
    t.Pairwise (fun a b => a.1 < b.1 ∧ a.2 + 1 < b.1) := by
  obtain ⟨hp, hv⟩ := h
  rw [allValid_iff] at hv
  refine List.Pairwise.imp_of_mem ?_ hp
  intro a b ha _ hab
  have := hv a ha
  omega

/-- C3. After construction from any batch of well-formed intervals, and after
any `add` of a well-formed interval to a state whose intervals are
well-formed, the stored list is strictly sorted by lower bound and any two
stored intervals `a`, `b` (in order) satisfy `a.hi + 1 < b.lo`: the merge in
`_simplify` re-establishes the disjoint-non-adjacent invariant after every
insertion. -/
theorem rangeSet_invariant :
    (∀ (rs t : List Range), allValid rs = true → mkRS rs = some t →
      t.Pairwise (fun a b => a.1 < b.1 ∧ a.2 + 1 < b.1)) ∧
    (∀ (s : List Range) (r : Range) (t : List Range),
      allValid s = true → addR s r = some t →
      t.Pairwise (fun a b => a.1 < b.1 ∧ a.2 + 1 < b.1)) := by
  constructor
  · intro rs t _ h
    rcases mkFrom_normalized rs [] t rfl h with h' | h'
    · subst h'; exact List.Pairwise.nil
    · exact normalized_strict h'
  · intro s r t hv h
    exact normalized_strict (addR_normalized hv h)

/-- C3 witness: constructing from `[(3,7),(5,8)]` and adding `(9,12)` to
`[(3,8)]` both produce strictly sorted, gap-separated stored lists. -/
theorem rangeSet_invariant_witness :
    allValid [((3 : Int), 7), (5, 8)] = true ∧
      mkRS [((3 : Int), 7), (5, 8)] = some [(3, 8)] ∧
      List.Pairwise (fun a b : Range => a.1 < b.1 ∧ a.2 + 1 < b.1) [((3 : Int), 8)] ∧
      allValid [((3 : Int), 8)] = true ∧
      addR [((3 : Int), 8)] (10, 12) = some [(3, 8), (10, 12)] ∧
      List.Pairwise (fun a b : Range => a.1 < b.1 ∧ a.2 + 1 < b.1)
        [((3 : Int), 8), (10, 12)] :=
  ⟨by decide, by decide,
    rangeSet_invariant.1 [((3 : Int), 7), (5, 8)] [(3, 8)] (by decide) (by decide),
    by decide, by decide,
    rangeSet_invariant.2 [((3 : Int), 8)] (10, 12) [(3, 8), (10, 12)]
      (by decide) (by decide)⟩

theorem addR_none_iff {s : List Range} {r : Range} :
    addR s r = none ↔ r.2 < r.1 := by
  unfold addR
  by_cases hr : r.1 ≤ r.2
  · rw [if_pos hr]; simp; omega
  · rw [if_neg hr]; simp; omega

theorem mkFrom_none_iff :
    ∀ (rs s : List Range), (mkFrom s rs = none ↔ ∃ r ∈ rs, r.2 < r.1) := by
  intro rs
  induction rs with
  | nil =>
    intro s
    simp [mkFrom]
  | cons r rest ih =>
    intro s
    unfold mkFrom
    rcases ha : addR s r with _ | s'
    · simp only [ha]
      have hr : r.2 < r.1 := addR_none_iff.mp ha
      constructor
      · intro _; exact ⟨r, List.mem_cons_self r rest, hr⟩
      · intro _; trivial
    · simp only [ha]
      have hr : ¬ r.2 < r.1 := by
        intro hc
        rw [addR_none_iff.mpr hc] at ha
        exact absurd ha (by simp)
      rw [ih s']
      constructor
      · intro ⟨x, hx, hx2⟩
        exact ⟨x, List.mem_cons_of_mem r hx, hx2⟩
      · intro ⟨x, hx, hx2⟩
        rcases List.mem_cons.mp hx with hx | hx
        · subst hx; exact absurd hx2 hr
        · exact ⟨x, hx, hx2⟩

/-- C5. Construction fails (the `assert` in `add` fires, raising
`AssertionError`) exactly when some supplied interval has `lo > hi`, and a
single `add` fails exactly when its interval has `lo > hi`; with only
well-formed intervals no error is raised. -/
theorem construction_fails_iff :
    (∀ rs : List Range, mkRS rs = none ↔ ∃ r ∈ rs, r.2 < r.1) ∧
    (∀ (s : List Range) (r : Range), addR s r = none ↔ r.2 < r.1) := by
  exact ⟨fun rs => mkFrom_none_iff rs [], fun s r => addR_none_iff⟩

theorem mem_expandN :
    ∀ (n : Nat) (s x : Int), x ∈ expandN s n ↔ s ≤ x ∧ x < s + n := by
  intro n
  induction n with
  | zero =>
    intro s x
    simp only [expandN, List.not_mem_nil, false_iff]
    omega
  | succ k ih =>
    intro s x
    rw [show expandN s (k + 1) = s :: expandN (s + 1) k from rfl]
    rw [List.mem_cons, ih (s + 1) x]
    push_cast
    omega

theorem length_expandN : ∀ (n : Nat) (s : Int), (expandN s n).length = n := by
  intro n
  induction n with
  | zero => intro s; rfl
  | succ k ih =>
    intro s
    rw [show expandN s (k + 1) = s :: expandN (s + 1) k from rfl]
    rw [List.length_cons, ih (s + 1)]

theorem pairwise_expandN :
    ∀ (n : Nat) (s : Int), (expandN s n).Pairwise (fun a b : Int => a < b) := by
  intro n
  induction n with
  | zero => intro s; exact List.Pairwise.nil
  | succ k ih =>
    intro s
    rw [show expandN s (k + 1) = s :: expandN (s + 1) k from rfl]
    rw [List.pairwise_cons]
    refine ⟨?_, ih (s + 1)⟩
    intro y hy
    have := (mem_expandN k (s + 1) y).mp hy
    omega

theorem mem_expand {r : Range} {x : Int} :
    x ∈ expand r ↔ r.1 ≤ x ∧ x ≤ r.2 := by
  unfold expand
  rw [mem_expandN]
  omega

theorem mem_toListR :
    ∀ (l : List Range) (x : Int),
      x ∈ toListR l ↔ ∃ r ∈ l, r.1 ≤ x ∧ x ≤ r.2 := by
  intro l
  induction l with
  | nil => intro x; simp [toListR]
  | cons r rest ih =>
    intro x
    rw [show toListR (r :: rest) = expand r ++ toListR rest from rfl]
    rw [List.mem_append, mem_expand, ih x]
    constructor
    · rintro (h | ⟨r', hr', h'⟩)
      · exact ⟨r, List.mem_cons_self r rest, h⟩
      · exact ⟨r', List.mem_cons_of_mem r hr', h'⟩
    · rintro ⟨r', hr', h'⟩
      rcases List.mem_cons.mp hr' with hr' | hr'
      · subst hr'; exact Or.inl h'
      · exact Or.inr ⟨r', hr', h'⟩

theorem normalized_cons {r : Range} {rest : List Range}
    (h : Normalized (r :: rest)) :
    (∀ b ∈ rest, r.2 + 1 < b.1) ∧ r.1 ≤ r.2 ∧ Normalized rest := by
  obtain ⟨hp, hv⟩ := h
  rw [List.pairwise_cons] at hp
  rw [allValid_iff] at hv
  refine ⟨hp.1, hv r (List.mem_cons_self r rest), hp.2, ?_⟩
  rw [allValid_iff]
  intro x hx
  exact hv x (List.mem_cons_of_mem r hx)

theorem sizeR_eq_length :
    ∀ l : List Range, allValid l = true → sizeR l = ((toListR l).length : Int) := by
  intro l
  induction l with
  | nil => intro _; rfl
  | cons r rest ih =>
    intro hv
    rw [allValid_iff] at hv
    have hr : r.1 ≤ r.2 := hv r (List.mem_cons_self r rest)
    have hrest : allValid rest = true := by
      rw [allValid_iff]
      intro x hx
      exact hv x (List.mem_cons_of_mem r hx)
    rw [show toListR (r :: rest) = expand r ++ toListR rest from rfl]
    rw [show sizeR (r :: rest) = (r.2 - r.1 + 1) + sizeR rest from by
      simp [sizeR]]
    rw [List.length_append, ih hrest]
    unfold expand
    rw [length_expandN]
    push_cast
    omega

theorem pairwise_toListR :
    ∀ l : List Range, Normalized l →
      (toListR l).Pairwise (fun a b : Int => a < b) := by
  intro l
  induction l with
  | nil => intro _; exact List.Pairwise.nil
  | cons r rest ih =>
    intro h
    obtain ⟨hgap, hr, hrest⟩ := normalized_cons h
    rw [show toListR (r :: rest) = expand r ++ toListR rest from rfl]
    rw [List.pairwise_append]
    refine ⟨pairwise_expandN _ _, ih hrest, ?_⟩
    intro x hx y hy
    have hx2 : x ≤ r.2 := (mem_expand.mp hx).2
    obtain ⟨r', hr', hy1, _⟩ := (mem_toListR rest y).mp hy
    have := hgap r' hr'
    omega

/-- C7. For every normalized coverage set: `Size()` is the sum over stored
intervals of `hi - lo + 1` (the definition of `__len__`); it equals the
number of integers produced by fully materializing `__iter__`; the set is
boolean-false exactly when `Size()` is `0`; and the iteration yields every
covered integer exactly once, in strictly ascending order (strict pairwise
order gives both ascending order and absence of duplicates). -/
theorem rangeSet_size_iteration (l : List Range) (h : Normalized l) :
    sizeR l = (l.map (fun r => r.2 - r.1 + 1)).sum ∧
      sizeR l = ((toListR l).length : Int) ∧
      (boolR l = false ↔ sizeR l = 0) ∧
      (toListR l).Pairwise (fun a b : Int => a < b) ∧
      (∀ x : Int, x ∈ toListR l ↔ ∃ r ∈ l, r.1 ≤ x ∧ x ≤ r.2) := by
  refine ⟨rfl, sizeR_eq_length l h.2, ?_, pairwise_toListR l h, mem_toListR l⟩
  simp [boolR]

/-- C7 witness: the normalized set `[(0,2),(5,6)]` has size `5`, iterates as
`[0,1,2,5,6]`, and satisfies all the stated iteration properties. -/
theorem rangeSet_size_iteration_witness :
    Normalized [((0 : Int), 2), (5, 6)] ∧
      (sizeR [((0 : Int), 2), (5, 6)] =
          ([((0 : Int), 2), (5, 6)].map (fun r => r.2 - r.1 + 1)).sum ∧
        sizeR [((0 : Int), 2), (5, 6)] =
          ((toListR [((0 : Int), 2), (5, 6)]).length : Int) ∧
        (boolR [((0 : Int), 2), (5, 6)] = false ↔
          sizeR [((0 : Int), 2), (5, 6)] = 0) ∧
        (toListR [((0 : Int), 2), (5, 6)]).Pairwise (fun a b : Int => a < b) ∧
        (∀ x : Int, x ∈ toListR [((0 : Int), 2), (5, 6)] ↔
          ∃ r ∈ [((0 : Int), 2), (5, 6)], r.1 ≤ x ∧ x ≤ r.2)) :=
  ⟨by decide, rangeSet_size_iteration [((0 : Int), 2), (5, 6)] (by decide)⟩

theorem mergePass_cons (prev next : Range) (rest : List Range) :
    mergePass prev (next :: rest)
      = if next.1 - 1 ≤ prev.2 then mergePass (prev.1, max prev.2 next.2) rest
        else prev :: mergePass next rest := rfl

theorem mergePass_skip {q lo hi : Int} (p : Int) (v : List Range)
    (h1 : lo ≤ hi) (h2 : hi ≤ q) :
    mergePass (p, q) ((lo, hi) :: v) = mergePass (p, q) v := by
  rw [mergePass_cons, if_pos (by show lo - 1 ≤ q; omega)]
  show mergePass (p, max q hi) v = mergePass (p, q) v
  rw [max_eq_left h2]

theorem mergePass_of_normalized :
    ∀ (t : List Range) (h : Range), Normalized (h :: t) → mergePass h t = h :: t := by
  intro t
  induction t with
  | nil => intro h _; rfl
  | cons n rest ih =>
    intro h hn
    obtain ⟨hgap, _, hn'⟩ := normalized_cons hn
    have hgn : h.2 + 1 < n.1 := hgap n (List.mem_cons_self n rest)
    rw [mergePass_cons, if_neg (by omega)]
    rw [ih n hn']

theorem mergePass_absorb_after :
    ∀ (u : List Range) (prev : Range) (a b lo hi : Int) (v : List Range),
      lo ≤ hi → hi ≤ b →
      mergePass prev (u ++ (a, b) :: (lo, hi) :: v)
        = mergePass prev (u ++ (a, b) :: v) := by
  intro u
  induction u with
  | nil =>
    intro prev a b lo hi v h1 h2
    rw [List.nil_append, List.nil_append]
    by_cases hc : a - 1 ≤ prev.2
    · have e1 : mergePass prev ((a, b) :: (lo, hi) :: v)
          = mergePass (prev.1, max prev.2 b) ((lo, hi) :: v) := by
        rw [mergePass_cons]; exact if_pos hc
      have e2 : mergePass prev ((a, b) :: v)
          = mergePass (prev.1, max prev.2 b) v := by
        rw [mergePass_cons]; exact if_pos hc
      rw [e1, e2]
      exact mergePass_skip _ v h1 (le_trans h2 (le_max_right _ _))
    · have e1 : mergePass prev ((a, b) :: (lo, hi) :: v)
          = prev :: mergePass (a, b) ((lo, hi) :: v) := by
        rw [mergePass_cons]; exact if_neg hc
      have e2 : mergePass prev ((a, b) :: v)
          = prev :: mergePass (a, b) v := by
        rw [mergePass_cons]; exact if_neg hc
      rw [e1, e2, mergePass_skip a v h1 h2]
  | cons x u' ih =>
    intro prev a b lo hi v h1 h2
    rw [List.cons_append, List.cons_append]
    by_cases hc : x.1 - 1 ≤ prev.2
    · have e1 : mergePass prev (x :: (u' ++ (a, b) :: (lo, hi) :: v))
          = mergePass (prev.1, max prev.2 x.2) (u' ++ (a, b) :: (lo, hi) :: v) := by
        rw [mergePass_cons]; exact if_pos hc
      have e2 : mergePass prev (x :: (u' ++ (a, b) :: v))
          = mergePass (prev.1, max prev.2 x.2) (u' ++ (a, b) :: v) := by
        rw [mergePass_cons]; exact if_pos hc
      rw [e1, e2]
      exact ih (prev.1, max prev.2 x.2) a b lo hi v h1 h2
    · have e1 : mergePass prev (x :: (u' ++ (a, b) :: (lo, hi) :: v))
          = prev :: mergePass x (u' ++ (a, b) :: (lo, hi) :: v) := by
        rw [mergePass_cons]; exact if_neg hc
      have e2 : mergePass prev (x :: (u' ++ (a, b) :: v))
          = prev :: mergePass x (u' ++ (a, b) :: v) := by
        rw [mergePass_cons]; exact if_neg hc
      rw [e1, e2, ih x a b lo hi v h1 h2]

theorem mergePass_absorb_before :
    ∀ (u : List Range) (prev : Range) (a b hi : Int) (v : List Range),
      (∀ p ∈ u, p.2 + 1 < a) → prev.2 + 1 < a → a ≤ hi → hi ≤ b →
      mergePass prev (u ++ (a, hi) :: (a, b) :: v)
        = mergePass prev (u ++ (a, b) :: v) := by
  intro u
  induction u with
  | nil =>
    intro prev a b hi v _ hprev h1 h2
    rw [List.nil_append, List.nil_append]
    have e1 : mergePass prev ((a, hi) :: (a, b) :: v)
        = prev :: mergePass (a, hi) ((a, b) :: v) := by
      rw [mergePass_cons]; exact if_neg (by show ¬ a - 1 ≤ prev.2; omega)
    have e2 : mergePass prev ((a, b) :: v)
        = prev :: mergePass (a, b) v := by
      rw [mergePass_cons]; exact if_neg (by show ¬ a - 1 ≤ prev.2; omega)
    have e3 : mergePass (a, hi) ((a, b) :: v) = mergePass (a, max hi b) v := by
      rw [mergePass_cons]; exact if_pos (by show a - 1 ≤ hi; omega)
    rw [e1, e2, e3, max_eq_right h2]
  | cons x u' ih =>
    intro prev a b hi v hu hprev h1 h2
    have hxu : x.2 + 1 < a := hu x (List.mem_cons_self x u')
    have hu' : ∀ p ∈ u', p.2 + 1 < a := fun p hp =>
      hu p (List.mem_cons_of_mem x hp)
    rw [List.cons_append, List.cons_append]
    by_cases hc : x.1 - 1 ≤ prev.2
    · have e1 : mergePass prev (x :: (u' ++ (a, hi) :: (a, b) :: v))
          = mergePass (prev.1, max prev.2 x.2) (u' ++ (a, hi) :: (a, b) :: v) := by
        rw [mergePass_cons]; exact if_pos hc
      have e2 : mergePass prev (x :: (u' ++ (a, b) :: v))
          = mergePass (prev.1, max prev.2 x.2) (u' ++ (a, b) :: v) := by
        rw [mergePass_cons]; exact if_pos hc
      rw [e1, e2]
      exact ih (prev.1, max prev.2 x.2) a b hi v hu'
        (by show max prev.2 x.2 + 1 < a; omega) h1 h2
    · have e1 : mergePass prev (x :: (u' ++ (a, hi) :: (a, b) :: v))
          = prev :: mergePass x (u' ++ (a, hi) :: (a, b) :: v) := by
        rw [mergePass_cons]; exact if_neg hc
      have e2 : mergePass prev (x :: (u' ++ (a, b) :: v))
          = prev :: mergePass x (u' ++ (a, b) :: v) := by
        rw [mergePass_cons]; exact if_neg hc
      rw [e1, e2, ih x a b hi v hu' hxu h1 h2]

theorem mergeAll_of_normalized {l : List Range} (h : Normalized l) :
    mergeAll l = l := by
  cases l with
  | nil => rfl
  | cons x t =>
    show mergePass x t = x :: t
    exact mergePass_of_normalized t x h

theorem mergeAll_absorb_after (u : List Range) (a b lo hi : Int)
    (v : List Range) (hn : Normalized (u ++ (a, b) :: v))
    (h2 : lo ≤ hi) (h3 : hi ≤ b) :
    mergeAll (u ++ (a, b) :: (lo, hi) :: v) = u ++ (a, b) :: v := by
  cases u with
  | nil =>
    rw [List.nil_append, List.nil_append]
    show mergePass (a, b) ((lo, hi) :: v) = (a, b) :: v
    rw [mergePass_skip a v h2 h3]
    exact mergePass_of_normalized v (a, b) (by rw [List.nil_append] at hn; exact hn)
  | cons x u' =>
    rw [List.cons_append, List.cons_append]
    show mergePass x (u' ++ (a, b) :: (lo, hi) :: v) = x :: (u' ++ (a, b) :: v)
    rw [mergePass_absorb_after u' x a b lo hi v h2 h3]
    exact mergePass_of_normalized _ x (by rw [List.cons_append] at hn; exact hn)

theorem mergeAll_absorb_before (u : List Range) (a b hi : Int)
    (v : List Range) (hn : Normalized (u ++ (a, b) :: v))
    (h1 : a ≤ hi) (h2 : hi ≤ b) :
    mergeAll (u ++ (a, hi) :: (a, b) :: v) = u ++ (a, b) :: v := by
  have hua : ∀ p ∈ u, p.2 + 1 < a := by
    intro p hp
    have := (List.pairwise_append.mp hn.1).2.2 p hp (a, b)
      (List.mem_cons_self _ _)
    exact this
  cases u with
  | nil =>
    rw [List.nil_append, List.nil_append]
    show mergePass (a, hi) ((a, b) :: v) = (a, b) :: v
    rw [mergePass_cons, if_pos (by show a - 1 ≤ hi; omega)]
    show mergePass (a, max hi b) v = (a, b) :: v
    rw [max_eq_right h2]
    exact mergePass_of_normalized v (a, b) (by rw [List.nil_append] at hn; exact hn)
  | cons x u' =>
    rw [List.cons_append, List.cons_append]
    show mergePass x (u' ++ (a, hi) :: (a, b) :: v) = x :: (u' ++ (a, b) :: v)
    rw [mergePass_absorb_before u' x a b hi v
      (fun p hp => hua p (List.mem_cons_of_mem x hp))
      (hua x (List.mem_cons_self x u')) h1 h2]
    exact mergePass_of_normalized _ x (by rw [List.cons_append] at hn; exact hn)

theorem normalized_sortedLex {l : List Range} (h : Normalized l) :
    List.Pairwise lexLe l := by
  obtain ⟨hp, hv⟩ := h
  rw [allValid_iff] at hv
  refine List.Pairwise.imp_of_mem ?_ hp
  intro a b ha _ hab
  have := hv a ha
  unfold lexLe
  omega

theorem sortRanges_eq_of_sorted {l l' : List Range}
    (hperm : l.Perm l') (hs : List.Pairwise lexLe l') : sortRanges l = l' :=
  List.eq_of_perm_of_sorted ((List.perm_insertionSort lexLe l).trans hperm)
    (sortRanges_sorted l) hs

/-- C8. Inserting a well-formed interval `(lo, hi)` that is fully contained
in an interval `(a, b)` already stored in a normalized coverage set leaves
the stored interval sequence unchanged (and therefore also `Size()`):
`add` returns exactly the previous state. -/
theorem add_contained_noop (s : List Range) (a b lo hi : Int)
    (hn : Normalized s) (hmem : (a, b) ∈ s)
    (h1 : a ≤ lo) (h2 : lo ≤ hi) (h3 : hi ≤ b) :
    addR s (lo, hi) = some s := by
  obtain ⟨u, v, rfl⟩ := List.append_of_mem hmem
  have hval : ∀ p ∈ u ++ (a, b) :: v, p.1 ≤ p.2 := allValid_iff.mp hn.2
  have hgap := List.pairwise_append.mp hn.1
  have hua : ∀ p ∈ u, p.2 + 1 < a := fun p hp =>
    hgap.2.2 p hp (a, b) (List.mem_cons_self _ _)
  have hbv : ∀ q ∈ v, b + 1 < q.1 := fun q hq =>
    (List.pairwise_cons.mp hgap.2.1).1 q hq
  have hlex := List.pairwise_append.mp (normalized_sortedLex hn)
  have hlu : List.Pairwise lexLe u := hlex.1
  have hlav : List.Pairwise lexLe ((a, b) :: v) := hlex.2.1
  have hlcross : ∀ p ∈ u, ∀ q ∈ (a, b) :: v, lexLe p q := hlex.2.2
  have hpu_lohi : ∀ p ∈ u, lexLe p (lo, hi) := by
    intro p hp
    have h4 := hua p hp
    have h5 := hval p (List.mem_append_left _ hp)
    show p.1 < lo ∨ (p.1 = lo ∧ p.2 ≤ hi)
    omega
  have hlohi_v : ∀ q ∈ v, lexLe (lo, hi) q := by
    intro q hq
    have := hbv q hq
    show lo < q.1 ∨ (lo = q.1 ∧ hi ≤ q.2)
    omega
  unfold addR
  rw [if_pos (show ((lo : Int), hi).1 ≤ ((lo : Int), hi).2 from h2)]
  refine congrArg some ?_
  unfold simplify
  by_cases hA : lexLe (a, b) (lo, hi)
  · have hperm : List.Perm ((u ++ (a, b) :: v) ++ [(lo, hi)])
        (u ++ (a, b) :: (lo, hi) :: v) := by
      rw [List.append_assoc, List.cons_append]
      exact List.Perm.append_left u
        (List.Perm.cons (a, b) (List.perm_append_singleton (lo, hi) v))
    have hsorted : List.Pairwise lexLe (u ++ (a, b) :: (lo, hi) :: v) := by
      rw [List.pairwise_append]
      refine ⟨hlu, ?_, ?_⟩
      · rw [List.pairwise_cons]
        refine ⟨?_, ?_⟩
        · intro q hq
          rcases List.mem_cons.mp hq with rfl | hq
          · exact hA
          · exact (List.pairwise_cons.mp hlav).1 q hq
        · rw [List.pairwise_cons]
          exact ⟨hlohi_v, (List.pairwise_cons.mp hlav).2⟩
      · intro p hp q hq
        rcases List.mem_cons.mp hq with rfl | hq
        · exact hlcross p hp (a, b) (List.mem_cons_self _ _)
        · rcases List.mem_cons.mp hq with rfl | hq
          · exact hpu_lohi p hp
          · exact hlcross p hp q (List.mem_cons_of_mem _ hq)
    rw [sortRanges_eq_of_sorted hperm hsorted]
    exact mergeAll_absorb_after u a b lo hi v hn h2 h3
  · have hA' : ¬ (a < lo ∨ (a = lo ∧ b ≤ hi)) := hA
    have halo : a = lo := by omega
    have hhib : hi < b := by omega
    subst halo
    have hperm : List.Perm ((u ++ (a, b) :: v) ++ [(a, hi)])
        (u ++ (a, hi) :: (a, b) :: v) := by
      rw [List.append_assoc]
      exact List.Perm.append_left u
        (List.perm_append_singleton (a, hi) ((a, b) :: v))
    have hsorted : List.Pairwise lexLe (u ++ (a, hi) :: (a, b) :: v) := by
      rw [List.pairwise_append]
      refine ⟨hlu, ?_, ?_⟩
      · rw [List.pairwise_cons]
        refine ⟨?_, hlav⟩
        intro q hq
        rcases List.mem_cons.mp hq with rfl | hq
        · show a < a ∨ (a = a ∧ hi ≤ b)
          omega
        · have := hbv q hq
          show a < q.1 ∨ (a = q.1 ∧ hi ≤ q.2)
          omega
      · intro p hp q hq
        rcases List.mem_cons.mp hq with rfl | hq
        · exact hpu_lohi p hp
        · rcases List.mem_cons.mp hq with rfl | hq
          · exact hlcross p hp (a, b) (List.mem_cons_self _ _)
          · exact hlcross p hp q (List.mem_cons_of_mem _ hq)
    rw [sortRanges_eq_of_sorted hperm hsorted]
    exact mergeAll_absorb_before u a b hi v hn h2 (le_of_lt hhib)

/-- C8 witness: adding `(2, 5)`, contained in the stored interval `(0, 10)`,
to the normalized set `[(0, 10)]` returns the state unchanged. -/
theorem add_contained_noop_witness :
    Normalized [((0 : Int), 10)] ∧
      ((0 : Int), (10 : Int)) ∈ [((0 : Int), 10)] ∧
      (0 : Int) ≤ 2 ∧ (2 : Int) ≤ 5 ∧ (5 : Int) ≤ 10 ∧
      addR [((0 : Int), 10)] (2, 5) = some [((0 : Int), 10)] :=
  ⟨by decide, by decide, by decide, by decide, by decide,
    add_contained_noop [((0 : Int), 10)] 0 10 2 5 (by decide) (by decide)
      (by decide) (by decide) (by decide)⟩

theorem chainSep_middleGaps :
    ∀ s : List Range, (∀ r ∈ s, r.1 ≤ r.2) →
      List.Chain' (fun a b : Range => a.2 < b.1) (middleGaps s)
  | [] => fun _ => List.chain'_nil
  | [_] => fun _ => List.chain'_nil
  | a :: b :: t => fun hv => by
    rw [show middleGaps (a :: b :: t)
        = (a.2 + 1, b.1 - 1) :: middleGaps (b :: t) from rfl]
    rw [List.chain'_cons']
    refine ⟨?_, chainSep_middleGaps (b :: t)
      (fun r hr => hv r (List.mem_cons_of_mem a hr))⟩
    intro y hy
    cases t with
    | nil => simp [middleGaps] at hy
    | cons c t' =>
      rw [show middleGaps (b :: c :: t')
          = (b.2 + 1, c.1 - 1) :: middleGaps (c :: t') from rfl,
        List.head?_cons] at hy
      simp only [Option.mem_def, Option.some.injEq] at hy
      subst hy
      have hb := hv b (List.mem_cons_of_mem a (List.mem_cons_self b _))
      show b.1 - 1 < b.2 + 1
      omega

theorem middleGaps_getLast :
    ∀ (t : List Range) (a b : Range), ∃ w : Int,
      (middleGaps (a :: b :: t)).getLast?
        = some (w, (List.getLast (b :: t) (List.cons_ne_nil b t)).1 - 1)
  | [], a, b => ⟨a.2 + 1, rfl⟩
  | c :: t', a, b => by
    obtain ⟨w, hw⟩ := middleGaps_getLast t' b c
    refine ⟨w, ?_⟩
    rw [show middleGaps (a :: b :: c :: t')
        = (a.2 + 1, b.1 - 1) :: ((b.2 + 1, c.1 - 1) :: middleGaps (c :: t')) from rfl]
    rw [List.getLast?_cons_cons]
    rw [show (b.2 + 1, c.1 - 1) :: middleGaps (c :: t')
        = middleGaps (b :: c :: t') from rfl]
    rw [hw]
    rw [show List.getLast (b :: c :: t') (List.cons_ne_nil b (c :: t'))
        = List.getLast (c :: t') (List.cons_ne_nil c t') from
      List.getLast_cons (List.cons_ne_nil c t')]

theorem chainSep_inverse_ranges (s : List Range) (mm : Range)
    (hv : allValid s = true) (hinv : mm.2 < mm.1) :
    List.Chain' (fun a b : Range => a.2 < b.1) (inverse_ranges s mm) := by
  have hv' := allValid_iff.mp hv
  cases s with
  | nil => exact List.chain'_nil
  | cons f rest =>
    have hfval : f.1 ≤ f.2 := hv' f (List.mem_cons_self f rest)
    have hdef : inverse_ranges (f :: rest) mm
        = (if mm.1 < f.1 then [(mm.1, min mm.2 f.1)] else [])
          ++ middleGaps (f :: rest)
          ++ (if (List.getLast (f :: rest) (List.cons_ne_nil f rest)).2 < mm.2
              then [(max (List.getLast (f :: rest) (List.cons_ne_nil f rest)).2 mm.1,
                mm.2)]
              else []) := rfl
    rw [hdef, List.append_assoc]
    refine List.Chain'.append ?_ (List.Chain'.append ?_ ?_ ?_) ?_
    · split
      · exact List.chain'_singleton _
      · exact List.chain'_nil
    · exact chainSep_middleGaps (f :: rest) hv'
    · split
      · exact List.chain'_singleton _
      · exact List.chain'_nil
    · intro x hx y hy
      rcases rest with _ | ⟨b, t⟩
      · rw [show middleGaps [f] = [] from rfl] at hx
        simp at hx
      · obtain ⟨w, hw⟩ := middleGaps_getLast t f b
        rw [hw] at hx
        simp only [Option.mem_def, Option.some.injEq] at hx
        subst hx
        have hL : List.getLast (f :: b :: t) (List.cons_ne_nil f (b :: t))
            = List.getLast (b :: t) (List.cons_ne_nil b t) :=
          List.getLast_cons (List.cons_ne_nil b t)
        rw [hL] at hy
        have hLval : (List.getLast (b :: t) (List.cons_ne_nil b t)).1
            ≤ (List.getLast (b :: t) (List.cons_ne_nil b t)).2 :=
          hv' _ (List.mem_cons_of_mem f (List.getLast_mem (List.cons_ne_nil b t)))
        by_cases hc2 : (List.getLast (b :: t) (List.cons_ne_nil b t)).2 < mm.2
        · rw [if_pos hc2, List.head?_cons] at hy
          simp only [Option.mem_def, Option.some.injEq] at hy
          subst hy
          show (List.getLast (b :: t) (List.cons_ne_nil b t)).1 - 1
            < max (List.getLast (b :: t) (List.cons_ne_nil b t)).2 mm.1
          omega
        · rw [if_neg hc2] at hy
          simp at hy
    · intro x hx y hy
      by_cases hc : mm.1 < f.1
      · rw [if_pos hc] at hx
        rw [show ([((mm.1 : Int), min mm.2 f.1)]).getLast?
            = some (mm.1, min mm.2 f.1) from rfl] at hx
        simp only [Option.mem_def, Option.some.injEq] at hx
        subst hx
        rcases rest with _ | ⟨b, t⟩
        · rw [show middleGaps [f] = [] from rfl, List.nil_append] at hy
          rw [show List.getLast [f] (List.cons_ne_nil f []) = f from rfl] at hy
          by_cases hc2 : f.2 < mm.2
          · rw [if_pos hc2, List.head?_cons] at hy
            simp only [Option.mem_def, Option.some.injEq] at hy
            subst hy
            show min mm.2 f.1 < max f.2 mm.1
            omega
          · rw [if_neg hc2] at hy
            simp at hy
        · rw [show middleGaps (f :: b :: t)
              = (f.2 + 1, b.1 - 1) :: middleGaps (b :: t) from rfl,
            List.cons_append, List.head?_cons] at hy
          simp only [Option.mem_def, Option.some.injEq] at hy
          subst hy
          show min mm.2 f.1 < f.2 + 1
          omega
      · rw [if_neg hc] at hx
        simp at hx

theorem chainSep_dropWhile (p : Range → Bool) :
    ∀ l : List Range, List.Chain' (fun a b : Range => a.2 < b.1) l →
      List.Chain' (fun a b : Range => a.2 < b.1) (l.dropWhile p)
  | [] => fun h => h
  | x :: xs => fun h => by
    rw [List.dropWhile_cons]
    by_cases hp : p x = true
    · rw [if_pos hp]
      exact chainSep_dropWhile p xs (List.Chain'.tail h)
    · rw [if_neg hp]
      exact h

theorem dropWhile_head_false (p : Range → Bool) :
    ∀ (l : List Range) (m : Range) (d' : List Range),
      l.dropWhile p = m :: d' → p m = false
  | [] => by
    intro m d' h
    rw [List.dropWhile_nil] at h
    exact absurd h (by simp)
  | x :: xs => by
    intro m d' h
    rw [List.dropWhile_cons] at h
    by_cases hp : p x = true
    · rw [if_pos hp] at h
      exact dropWhile_head_false p xs m d' h
    · rw [if_neg hp] at h
      injection h with h1 _
      subst h1
      simp only [Bool.not_eq_true] at hp
      exact hp

theorem restrict_inverted (mm : Range) (G : List Range)
    (hchain : List.Chain' (fun a b : Range => a.2 < b.1) G)
    (hinv : mm.2 < mm.1) :
    mkRS (restrict_ranges mm G) = some [] ∨ mkRS (restrict_ranges mm G) = none := by
  unfold restrict_ranges
  cases hd : G.dropWhile (tooFarLeft mm) with
  | nil =>
    rw [List.takeWhile_nil]
    left
    rfl
  | cons m d' =>
    have hm : tooFarLeft mm m = false := dropWhile_head_false _ G m d' hd
    have hm' : mm.1 ≤ m.2 := by
      unfold tooFarLeft at hm
      simp only [decide_eq_false_iff_not, not_lt] at hm
      exact hm
    by_cases hnr : notTooFarRight mm m = true
    · rw [List.takeWhile_cons_of_pos hnr]
      have htail : d'.takeWhile (notTooFarRight mm) = [] := by
        rcases d' with _ | ⟨r, d''⟩
        · rfl
        · have hchm : List.Chain' (fun a b : Range => a.2 < b.1) (m :: r :: d'') := by
            rw [← hd]
            exact chainSep_dropWhile _ G hchain
          have hmr : m.2 < r.1 := (List.chain'_cons.mp hchm).1
          apply List.takeWhile_cons_of_neg
          unfold notTooFarRight
          simp only [decide_eq_true_eq, not_le]
          omega
      rw [htail]
      right
      rw [show clipFirst mm [m] = [(max m.1 mm.1, m.2)] from rfl]
      rw [show clipLast mm [(max m.1 mm.1, m.2)]
          = [(max m.1 mm.1, min m.2 mm.2)] from rfl]
      have hbad : addR [] (max m.1 mm.1, min m.2 mm.2) = none :=
        addR_none_iff.mpr (by show min m.2 mm.2 < max m.1 mm.1; omega)
      show mkFrom [] [(max m.1 mm.1, min m.2 mm.2)] = none
      unfold mkFrom
      rw [hbad]
    · rw [List.takeWhile_cons_of_neg hnr]
      left
      rfl

/-- C6 (amended). With an inverted bound (`blo > bhi`), `inverse_of` never
returns a nonempty coverage set: it returns the empty set, except that when
a gap of the coverage set spans the inverted bound region the clipped gap
becomes an invalid interval and the `add` assertion fails
(`AssertionError`, modelled as `none`). -/
theorem inverse_of_inverted_bound (s : List Range) (mm : Range)
    (hv : allValid s = true) (hinv : mm.2 < mm.1) :
    inverse_of s mm = some [] ∨ inverse_of s mm = none := by
  unfold inverse_of
  exact restrict_inverted mm (inverse_ranges s mm)
    (chainSep_inverse_ranges s mm hv hinv) hinv

/-- C6 counterexample: for the constructible coverage set
`RangeSet([(0, 3), (30, 40)])` and the inverted bound `(20, 10)` the call
does not return an empty coverage set: the middle gap `(4, 29)` survives
the filtering, is clipped to the invalid interval `(20, 10)`, and the
`add` assertion fails (an `AssertionError`, modelled as `none`). -/
theorem inverse_of_inverted_bound_raises :
    mkRS [((0 : Int), 3), (30, 40)] = some [(0, 3), (30, 40)] ∧
      (20 : Int) > 10 ∧
      inverse_of [((0 : Int), 3), (30, 40)] ((20 : Int), (10 : Int)) = none :=
  ⟨by decide, by decide, by decide⟩

/-- C6 witness: for the coverage set `[(0, 3)]` and inverted bound `(5, 3)`
the amended statement holds (here the call returns the empty set). -/
theorem inverse_of_inverted_bound_witness :
    allValid [((0 : Int), 3)] = true ∧ ((5 : Int), (3 : Int)).2 < ((5 : Int), (3 : Int)).1 ∧
      (inverse_of [((0 : Int), 3)] ((5 : Int), (3 : Int)) = some [] ∨
        inverse_of [((0 : Int), 3)] ((5 : Int), (3 : Int)) = none) :=
  ⟨by decide, by decide,
    inverse_of_inverted_bound [((0 : Int), 3)] ((5 : Int), (3 : Int))
      (by decide) (by decide)⟩
